import Mathlib

/-!
Verification development for the AppData/AppStream metadata parser
(`ext/repo_appdata.c`): a streaming XML state machine that turns appdata
documents into package records with synthesized requires/provides relations.

The C code is shallowly embedded: strings are `List Char`, the growable
NUL-terminated content buffer is modelled both at string level (the text up to
the terminator) and, where the code writes marker bytes relative to the
terminator, at buffer level (string ++ NUL ++ stale tail bytes).  Interned pool
ids are modelled by the strings they intern; dependency ids by a small
inductive (`Dep`).  File I/O (the desktop-entry fallback reader) is abstracted
as an oracle yielding the first `Name=`/`Comment=` values of the file's
`[Desktop Entry]` section, per its interface.
-/

namespace Appdata

/-- Whitespace characters recognised by `wsstrip` in the C source:
space, tab, newline. -/
def isWs (c : Char) : Bool := c = ' ' || c = '\t' || c = '\n'

/-- `ws` bitmask contribution of one whitespace character, as in the C source:
`ws |= pd->content[i] == '\n' ? 2 : 1`. -/
def wsNum (c : Char) : Nat := if c = '\n' then 2 else 1

/-- The separator emitted for a pending whitespace run, as in the C source:
`(ws & 2) ? '\n' : ' '`. -/
def wsSep (ws : Nat) : Char := if ws &&& 2 ≠ 0 then '\n' else ' '

/-- The loop of `wsstrip` (repo_appdata.c lines 203-222).  `acc` is the output
written so far, in reverse (the C writes in place at index `j = acc.length`;
the in-place writes never clobber unread input because `j ≤ i` throughout).
The C condition `if (ws && j)` is `ws ≠ 0 ∧ acc ≠ []`. -/
def wsstripGo : List Char → Nat → List Char → List Char
  | [], _, acc => acc.reverse
  | c :: s, ws, acc =>
    if isWs c then
      wsstripGo s (ws ||| wsNum c) acc
    else if ws ≠ 0 ∧ acc ≠ [] then
      wsstripGo s 0 (c :: wsSep ws :: acc)
    else
      wsstripGo s 0 (c :: acc)

/-- `wsstrip` from repo_appdata.c: collapse whitespace runs to one
space/newline, drop leading and trailing whitespace. -/
def wsstrip (s : List Char) : List Char := wsstripGo s 0 []

example : wsstrip "  a  b ".toList = "a b".toList := by decide
example : wsstrip "a \t\n b".toList = ['a', '\n', 'b'] := by decide
example : wsstrip " \t ".toList = [] := by decide

/-- The collapsed form of one whitespace run, per the spec's collapse rule:
a run containing a newline becomes a single newline, otherwise a single
space. -/
def runSep (r : List Char) : Char := if '\n' ∈ r then '\n' else ' '

theorem dropWhile_length_le (p : Char → Bool) (l : List Char) :
    (l.dropWhile p).length ≤ l.length := by
  induction l with
  | nil => simp
  | cons c t ih =>
    rw [List.dropWhile_cons]
    split
    · exact Nat.le_succ_of_le ih
    · simp

/-- Specification-level restatement of the whitespace-collapse rule, used to
state that `wsstrip` collapses every internal maximal whitespace run to a
single separator character and drops a trailing run.  The input is assumed to
start with a non-whitespace character (the caller drops the leading run). -/
def wsspecGo (s : List Char) : List Char :=
  match s with
  | [] => []
  | c :: t =>
    if h : isWs c then
      let rest := (c :: t).dropWhile isWs
      if rest.isEmpty then [] else runSep ((c :: t).takeWhile isWs) :: wsspecGo rest
    else
      c :: wsspecGo t
termination_by s.length
decreasing_by
  · rw [List.dropWhile_cons, if_pos h]
    exact Nat.lt_succ_of_le (dropWhile_length_le isWs t)
  · simp

/-- Specification-level whitespace normalization: drop the leading whitespace
run, then collapse each internal run and drop a trailing run. -/
def wsspec (s : List Char) : List Char := wsspecGo (s.dropWhile isWs)

/-- The loop of `indent` (repo_appdata.c lines 225-248).  The C walks the
buffer: a `'\n'` is stepped over; at the first character of a non-empty line it
inserts `il` spaces (after growing the buffer) and then advances to the next
newline.  Equivalently, walking character by character with an at-line-start
flag, `il` spaces are inserted before the first character of every line whose
first character is not `'\n'` (empty lines are stepped over un-indented). -/
def indentGo (il : Nat) : Bool → List Char → List Char
  | _, [] => []
  | atStart, c :: t =>
    if c = '\n' then c :: indentGo il true t
    else if atStart then List.replicate il ' ' ++ c :: indentGo il false t
    else c :: indentGo il false t

/-- `indent` from repo_appdata.c: insert `il` spaces at the start of every
non-empty line. -/
def indent (il : Nat) (s : List Char) : List Char := indentGo il true s

example : indent 4 "ab\ncd".toList = "    ab\n    cd".toList := by decide
example : indent 2 "a\n\nb".toList = "  a\n\n  b".toList := by decide
example : indent 3 [] = [] := by decide

/-- The lines of a buffer, delimited by newline characters or the buffer
boundaries: `linesOf "a\nb" = ["a","b"]`, `linesOf "" = [""]`,
`linesOf "a\n" = ["a",""]`. -/
def linesOf (s : List Char) : List (List Char) :=
  match s with
  | [] => [[]]
  | c :: t =>
    if c = '\n' then [] :: linesOf t
    else
      match linesOf t with
      | [] => [[c]]
      | l :: ls => (c :: l) :: ls

example : linesOf "a\n\nb".toList = [['a'], [], ['b']] := by decide

/-! ### Buffer-level model

The content buffer is a NUL-terminated C string inside a larger allocation:
`buffer = string ++ [nul] ++ stale bytes`.  The marker overwrites performed at
list-item close (`pd->content[2] = '-'` etc.) are plain byte stores at fixed
indices, which can land beyond the string's terminator; they are modelled on
the whole buffer, with `strOf` recovering the string the C code would read. -/

/-- The NUL byte terminating C strings. -/
def nul : Char := Char.ofNat 0

/-- The C string stored in a buffer: its bytes up to the first NUL. -/
def strOf (b : List Char) : List Char := b.takeWhile (fun c => c ≠ nul)

/-- Net effect of the in-place `wsstrip` on the whole buffer.  The loop
compacts the string in place (writes at `j ≤ i` only), then stores a NUL at
the output length; every byte beyond that NUL keeps its previous value. -/
def wsstripBuf (b : List Char) : List Char :=
  wsstrip (strOf b) ++ [nul] ++ b.drop ((wsstrip (strOf b)).length + 1)

/-- Net effect of the in-place `indent` on the whole buffer.  Each `memmove`
shifts the remaining string plus its NUL right by `il`, consuming `il` stale
bytes after the terminator per non-empty line; bytes beyond that keep their
previous values. -/
def indentBuf (il : Nat) (b : List Char) : List Char :=
  indent il (strOf b) ++ [nul] ++
    (b.drop ((strOf b).length + 1)).drop
      (il * ((linesOf (strOf b)).filter (fun l => l ≠ [])).length)

/-- `'0' + d` for a digit value `d`, as in the C marker writes. -/
def digitChar (d : Nat) : Char := Char.ofNat (48 + d)

/-- Buffer effect of the `STATE_UL_LI` close (repo_appdata.c lines 459-464):
`wsstrip`, `indent 4`, then the byte store `pd->content[2] = '-'`. -/
def ulCloseBuf (b : List Char) : List Char :=
  ((indentBuf 4 (wsstripBuf b)).set 2 '-')

/-- Buffer effect of the `STATE_OL_LI` close (repo_appdata.c lines 465-473)
given the already-incremented item counter `licnt`: `wsstrip`, `indent 4`,
then `content[0] = '0' + licnt / 10 % 10` when `licnt ≥ 10`,
`content[1] = '0' + licnt % 10`, `content[2] = '.'`. -/
def olCloseBuf (licnt : Nat) (b : List Char) : List Char :=
  let b2 := indentBuf 4 (wsstripBuf b)
  let b3 := if 10 ≤ licnt then b2.set 0 (digitChar (licnt / 10 % 10)) else b2
  ((b3.set 1 (digitChar (licnt % 10))).set 2 '.')

example : strOf (ulCloseBuf ('I' :: 't' :: 'e' :: 'm' :: nul :: [nul, nul])) =
    "  - Item".toList := by decide
example : strOf (olCloseBuf 3 ('I' :: 't' :: nul :: [nul, nul])) =
    " 3. It".toList := by decide
example : strOf (olCloseBuf 10 ('I' :: 't' :: nul :: [nul, nul])) =
    "10. It".toList := by decide
example : strOf (olCloseBuf 2 (' ' :: nul :: [nul, nul])) = [] := by decide
example : strOf (olCloseBuf 10 (' ' :: nul :: [nul, nul])) =
    ['1', '0', '.'] := by decide

/-! ### The parser state machine -/

/-- `enum state` from repo_appdata.c. -/
inductive AState where
  | start | application | id | pkgname | licence | name | summary | description
  | p | ul | ul_li | ol | ol_li | url | group | keywords | keyword | extendsSt
  deriving DecidableEq, Repr

/-- `struct stateswitch`: a transition of the table. -/
structure Stateswitch where
  from_ : AState
  ename : List Char
  to_ : AState
  docontent : Bool
  deriving DecidableEq, Repr

/-- The `stateswitches` table from repo_appdata.c lines 64-86 (sorted by the
`from` column; `extends` is a Lean keyword, hence the state name
`extendsSt`). -/
def stateswitches : List Stateswitch :=
  [ ⟨.start,       "applications".toList,    .start,       false⟩,
    ⟨.start,       "components".toList,      .start,       false⟩,
    ⟨.start,       "application".toList,     .application, false⟩,
    ⟨.start,       "component".toList,       .application, false⟩,
    ⟨.application, "id".toList,              .id,          true⟩,
    ⟨.application, "pkgname".toList,         .pkgname,     true⟩,
    ⟨.application, "product_license".toList, .licence,     true⟩,
    ⟨.application, "name".toList,            .name,        true⟩,
    ⟨.application, "summary".toList,         .summary,     true⟩,
    ⟨.application, "description".toList,     .description, false⟩,
    ⟨.application, "url".toList,             .url,         true⟩,
    ⟨.application, "project_group".toList,   .group,       true⟩,
    ⟨.application, "keywords".toList,        .keywords,    false⟩,
    ⟨.application, "extends".toList,         .extendsSt,   true⟩,
    ⟨.description, "p".toList,               .p,           true⟩,
    ⟨.description, "ul".toList,              .ul,          false⟩,
    ⟨.description, "ol".toList,              .ol,          false⟩,
    ⟨.ul,          "li".toList,              .ul_li,       true⟩,
    ⟨.ol,          "li".toList,              .ol_li,       true⟩,
    ⟨.keywords,    "keyword".toList,         .keyword,     true⟩ ]

/-- Transition lookup: the C scans the contiguous run of entries whose `from`
matches the current state (via the `swtab` index built in
`repo_add_appdata_fn`); on this sorted table that equals a first-match search
over the whole table. -/
def findTransition (st : AState) (ename : List Char) : Option Stateswitch :=
  stateswitches.find? (fun sw => sw.from_ = st ∧ sw.ename = ename)

/-- The parent-state table `sbtab`: `sbtab[sw->to] = sw->from` over the table
(last write wins); entries never assigned stay at the `memset` default
`STATE_START`. -/
def sbtab (st : AState) : AState :=
  (stateswitches.foldl
    (fun f sw => fun x => if x = sw.to_ then sw.from_ else f x)
    (fun _ => AState.start)) st

example : sbtab .ul_li = .ul := by decide
example : sbtab .application = .start := by decide
example : sbtab .keyword = .keywords := by decide

/-- `find_attr` from repo_appdata.c: first attribute with the given name. -/
def find_attr (txt : List Char) (atts : List (List Char × List Char)) :
    Option (List Char) :=
  match atts.find? (fun a => a.1 = txt) with
  | some a => some a.2
  | none => none

/-- Architecture sentinels referenced by the code (`ARCH_NOARCH`, `ARCH_SRC`,
`ARCH_NOSRC`). -/
inductive Arch where
  | noarch | src | nosrc
  deriving DecidableEq, Repr

/-- A dependency id: either a plain named capability or a `REL_EQ` relation
`name = evr` created by `pool_rel2id(..., REL_EQ, 1)`. -/
inductive Dep where
  | plain (s : List Char)
  | rel (n v : List Char)
  deriving DecidableEq, Repr

/-- A solvable together with the repodata fields this parser writes through
`repodata_set_*` / `repodata_add_poolstr_array` on its handle.  Pool ids are
modelled by the interned strings; an unset id field is `none`
(`ID_EMPTY` is `some []`). -/
structure Solv where
  name : Option (List Char) := none
  arch : Option Arch := none
  evr : Option (List Char) := none
  requires : List Dep := []
  provides : List Dep := []
  category : Option (List Char) := none
  summary : Option (List Char) := none
  url : Option (List Char) := none
  descriptionF : Option (List Char) := none
  license : List (List Char) := []
  group : List (List Char) := []
  extendsA : List (List Char) := []
  keywords : List (List Char) := []
  deriving DecidableEq, Repr

/-- `struct parsedata` (the fields the claims concern), plus `closed`: the
records finalized so far, which in the C remain in the repo after
`pd->solvable` is released at `application` close. -/
structure Parsedata where
  depth : Nat := 0
  state : AState := .start
  statedepth : Nat := 0
  content : List Char := []
  docontent : Bool := false
  description : Option (List Char) := none
  licnt : Nat := 0
  skip_depth : Nat := 0
  solvable : Option Solv := none
  havesummary : Bool := false
  desktop_file : Option (List Char) := none
  closed : List Solv := []
  deriving Repr

/-- Per-call configuration of `repo_add_appdata_fn`: the
`APPDATA_CHECK_DESKTOP_FILE` flag, the originating `filename` argument, the
`owners` queue (modelled by the owner solvables' names; the callers pass
either no queue or a non-empty one), and the desktop-entry fallback reader
abstracted as an oracle returning the first `Name=` and first `Comment=`
values of the file's `[Desktop Entry]` section (the file I/O of
`add_missing_tags_from_desktop_file` is outside the embedding). -/
structure Cfg where
  checkDesktopFile : Bool := false
  filename : Option (List Char) := none
  owners : List (List Char) := []
  desktopLookup : List Char → Option (List Char) × Option (List Char) :=
    fun _ => (none, none)

/-- `guess_filename_from_id` from repo_appdata.c lines 323-341: map a
desktop-file-derived identifier to a metadata filename by suffix replacement;
with no recognized suffix the C returns NULL (`none`). -/
def guess_filename_from_id (id : List Char) : Option (List Char) :=
  let l := id.length
  if 8 < l ∧ id.drop (l - 8) = ".desktop".toList then
    some (id.take (l - 8) ++ ".appdata.xml".toList)
  else if 4 < l ∧ id.drop (l - 4) = ".ttf".toList then
    some (id.take (l - 4) ++ ".metainfo.xml".toList)
  else if 4 < l ∧ id.drop (l - 4) = ".otf".toList then
    some (id.take (l - 4) ++ ".metainfo.xml".toList)
  else if 4 < l ∧ id.drop (l - 4) = ".xml".toList then
    some (id.take (l - 4) ++ ".metainfo.xml".toList)
  else if 3 < l ∧ id.drop (l - 3) = ".db".toList then
    some (id.take (l - 3) ++ ".metainfo.xml".toList)
  else
    none

example : guess_filename_from_id "foo.desktop".toList =
    some "foo.appdata.xml".toList := by decide
example : guess_filename_from_id "foo.bin".toList = none := by decide

/-- Effect of `add_missing_tags_from_desktop_file` (repo_appdata.c lines
250-321) on the solvable and `havesummary`, with the parsed desktop file
supplied by the oracle: a missing name is filled from `Name=` (prefixed
`application:`), a missing summary from `Comment=`. -/
def add_missing_tags_from_desktop_file (cfg : Cfg) (desktop_file : List Char)
    (havesummary : Bool) (s : Solv) : Solv × Bool :=
  let nc := cfg.desktopLookup desktop_file
  let s := if s.name = none then
             match nc.1 with
             | some n => { s with name := some ("application:".toList ++ n) }
             | none => s
           else s
  if havesummary = false then
    match nc.2 with
    | some c => ({ s with summary := some c }, true)
    | none => (s, havesummary)
  else (s, havesummary)

/-- `startElement` from repo_appdata.c lines 127-199: skip inside unknown
subtrees, look up the transition, enter the new state (resetting the content
buffer), engage the `xml:lang` skip filter, and run the state-entry side
effects (allocate a solvable on `application`/`component`, clear the pending
description on `description`, reset the list counter on `ol`/`ul`). -/
def startElement (pd : Parsedata) (name : List Char)
    (atts : List (List Char × List Char)) : Parsedata :=
  if pd.depth ≠ pd.statedepth then { pd with depth := pd.depth + 1 }
  else
    let pd := { pd with depth := pd.depth + 1 }
    match findTransition pd.state name with
    | none => pd
    | some sw =>
      let pd := { pd with state := sw.to_, docontent := sw.docontent,
                          statedepth := pd.depth, content := [] }
      let pd := if pd.skip_depth = 0 ∧ (find_attr "xml:lang".toList atts).isSome
                then { pd with skip_depth := pd.depth } else pd
      if pd.skip_depth ≠ 0 then { pd with docontent := false }
      else
        match pd.state with
        | .application =>
          let ty := match find_attr "type".toList atts with
                    | none => "desktop".toList
                    | some t => if t = [] then "desktop".toList else t
          { pd with solvable := some { category := some ty },
                    havesummary := false }
        | .description => { pd with description := none }
        | .ol => { pd with licnt := 0 }
        | .ul => { pd with licnt := 0 }
        | _ => pd

/-- `characterData` from repo_appdata.c lines 500-519: append the text to the
content buffer when the current element captures text. -/
def characterData (pd : Parsedata) (s : List Char) : Parsedata :=
  if pd.docontent then { pd with content := pd.content ++ s } else pd

/-- Strip all trailing newline characters (the loop at repo_appdata.c lines
449-451). -/
def rstripNl (s : List Char) : List Char :=
  (s.reverse.dropWhile (fun c => c = '\n')).reverse

/-- `solv_dupappend(str1, str2, str3)` with a NULL third part treated as
empty: concatenation, a NULL first part being the empty string. -/
def dupappend (d : Option (List Char)) (s sep : List Char) : List Char :=
  d.getD [] ++ s ++ sep

/-- The name derived from the desktop file at `application` close
(repo_appdata.c lines 385-392): prefix `application:`, then drop a trailing
`.desktop` from the joined string. -/
def nameFromDesktopFile (df : List Char) : List Char :=
  let nm := "application:".toList ++ df
  let l := nm.length
  if 8 < l ∧ nm.drop (l - 8) = ".desktop".toList then nm.take (l - 8) else nm

/-- Owner-queue dependency synthesis (repo_appdata.c lines 393-404): for each
owner record add a requires edge on its name and a provides edge
`application-appdata(<owner name>)`. -/
def addOwnerDeps : List (List Char) → Solv → Solv
  | [], s => s
  | oname :: rest, s =>
    addOwnerDeps rest
      { s with requires := s.requires ++ [Dep.plain oname],
               provides := s.provides ++
                 [Dep.plain ("application-appdata(".toList ++ oname ++ [')'])] }

/-- The `STATE_APPLICATION` close branch of `endElement` (repo_appdata.c lines
378-422) is `applicationClose` below, split into one definition per statement
block of the C: default arch/evr, desktop-entry fallback, name fallback from
the desktop file, owner-list and filename-derived requires/provides synthesis,
the self-provide `name = evr`, then release of the solvable into the repo.
The `pd->owners` pointer check is modelled as a non-emptiness check (callers
pass either no queue or a non-empty queue).

Lines 379-382: default the architecture to `noarch` and the version to the
empty sentinel. -/
def acDefaults (s : Solv) : Solv :=
  let s := if s.arch = none then { s with arch := some .noarch } else s
  if s.evr = none then { s with evr := some [] } else s

/-- Lines 383-384: consult the desktop-entry fallback when name or summary is
still missing and the flag is set. -/
def acDesktopFallback (cfg : Cfg) (desktop_file : Option (List Char))
    (havesummary : Bool) (s : Solv) : Solv × Bool :=
  match desktop_file with
  | some df =>
    if (s.name = none ∨ havesummary = false) ∧ cfg.checkDesktopFile then
      add_missing_tags_from_desktop_file cfg df havesummary s
    else (s, havesummary)
  | none => (s, havesummary)

/-- Lines 385-392: derive a still-missing name from the desktop file. -/
def acNameFallback (desktop_file : Option (List Char)) (s : Solv) : Solv :=
  match s.name, desktop_file with
  | none, some df => { s with name := some (nameFromDesktopFile df) }
  | _, _ => s

/-- Lines 393-404: owner-queue dependency synthesis when no requires exist. -/
def acOwnerDeps (cfg : Cfg) (s : Solv) : Solv :=
  if s.requires = [] ∧ cfg.owners ≠ [] then addOwnerDeps cfg.owners s else s

/-- Lines 405-417: filename-derived appdata link requires/provides when no
requires exist; the explicit filename wins over the guessed one.  The C
derives the requires id by skipping 12 bytes of the provides string
(`filename + 12`), i.e. dropping the `application-` prefix of
`application-appdata(...)`. -/
def acFileDeps (cfg : Cfg) (desktop_file : Option (List Char)) (s : Solv) :
    Solv :=
  if s.requires = [] ∧ (desktop_file.isSome ∨ cfg.filename.isSome) then
    let fn : Option (List Char) :=
      match cfg.filename with
      | some f => some f
      | none => match desktop_file with
                | some df => guess_filename_from_id df
                | none => none
    match fn with
    | none => s
    | some f =>
      let full := "application-appdata(".toList ++ f ++ [')']
      { s with requires := s.requires ++ [Dep.plain (full.drop 12)],
               provides := s.provides ++ [Dep.plain full] }
  else s

/-- Lines 418-419: the self-provide relation `name = evr` for named records of
non-source architecture. -/
def acSelfProvide (s : Solv) : Solv :=
  if s.name.isSome ∧ s.arch ≠ some .src ∧ s.arch ≠ some .nosrc then
    { s with provides := s.provides ++
        [Dep.rel (s.name.getD []) (s.evr.getD [])] }
  else s

def applicationClose (cfg : Cfg) (pd : Parsedata) (s : Solv) : Parsedata :=
  let shs := acDesktopFallback cfg pd.desktop_file pd.havesummary (acDefaults s)
  let s := acSelfProvide (acFileDeps cfg pd.desktop_file
    (acOwnerDeps cfg (acNameFallback pd.desktop_file shs.1)))
  { pd with solvable := none, havesummary := shs.2,
            desktop_file := none, closed := pd.closed ++ [s] }

/-- The state-specific finalizations of `endElement` (the `switch` at
repo_appdata.c lines 376-489).  Branches that dereference `pd->solvable` are
gated on its presence (the transition table makes them unreachable
otherwise). -/
def endAction (cfg : Cfg) (pd : Parsedata) : Parsedata :=
  match pd.state with
  | .application =>
    match pd.solvable with
    | some s => applicationClose cfg pd s
    | none => pd
  | .id => { pd with desktop_file := some pd.content }
  | .name =>
    match pd.solvable with
    | some s => { pd with solvable := some { s with
        name := some ("application:".toList ++ pd.content) } }
    | none => pd
  | .licence =>
    match pd.solvable with
    | some s => { pd with solvable := some { s with
        license := s.license ++ [pd.content] } }
    | none => pd
  | .summary =>
    match pd.solvable with
    | some s => { pd with havesummary := true, solvable := some { s with
        summary := some pd.content } }
    | none => pd
  | .url =>
    match pd.solvable with
    | some s => { pd with solvable := some { s with
        url := some pd.content } }
    | none => pd
  | .group =>
    match pd.solvable with
    | some s => { pd with solvable := some { s with
        group := s.group ++ [pd.content] } }
    | none => pd
  | .extendsSt =>
    match pd.solvable with
    | some s => { pd with solvable := some { s with
        extendsA := s.extendsA ++ [pd.content] } }
    | none => pd
  | .description =>
    match pd.description with
    | none => pd
    | some d =>
      let d := rstripNl d
      match pd.solvable with
      | some s =>
        { pd with description := some d,
                  solvable := some { s with descriptionF := some d } }
      | none => { pd with description := some d }
  | .p =>
    let c := wsstrip pd.content
    { pd with content := c,
              description := some (dupappend pd.description c ['\n', '\n']) }
  | .ul_li =>
    let c := (indent 4 (wsstrip pd.content)).set 2 '-'
    { pd with content := c,
              description := some (dupappend pd.description c ['\n']) }
  | .ol_li =>
    let cnt := pd.licnt + 1
    let c0 := indent 4 (wsstrip pd.content)
    let c1 := if 10 ≤ cnt then c0.set 0 (digitChar (cnt / 10 % 10)) else c0
    let c := (c1.set 1 (digitChar (cnt % 10))).set 2 '.'
    { pd with licnt := cnt, content := c,
              description := some (dupappend pd.description c ['\n']) }
  | .ul => { pd with description := some (dupappend pd.description ['\n'] []) }
  | .ol => { pd with description := some (dupappend pd.description ['\n'] []) }
  | .pkgname =>
    match pd.solvable with
    | some s => { pd with solvable := some { s with
        requires := s.requires ++ [Dep.plain pd.content],
        provides := s.provides ++ [Dep.plain
          ("application-appdata(".toList ++ pd.content ++ [')'])] } }
    | none => pd
  | .keyword =>
    match pd.solvable with
    | some s => { pd with solvable := some { s with
        keywords := s.keywords ++ [pd.content] } }
    | none => pd
  | _ => pd

/-- `endElement` from repo_appdata.c lines 343-497: unwind unknown subtrees,
unwind a language-filtered subtree without finalization (clearing the skip at
its boundary), otherwise run the state finalization and restore the parent
state via `sbtab`. -/
def endElement (cfg : Cfg) (pd : Parsedata) : Parsedata :=
  if pd.depth ≠ pd.statedepth then { pd with depth := pd.depth - 1 }
  else
    let pd := { pd with depth := pd.depth - 1, statedepth := pd.statedepth - 1 }
    if pd.skip_depth ≠ 0 ∧ pd.skip_depth ≤ pd.depth + 1 then
      let pd := if pd.depth + 1 = pd.skip_depth then { pd with skip_depth := 0 }
                else pd
      { pd with state := sbtab pd.state, docontent := false }
    else
      let pd := { pd with skip_depth := 0 }
      let pd := endAction cfg pd
      { pd with state := sbtab pd.state, docontent := false }

/-- One tokenizer event, as delivered by the expat driver in document
order. -/
inductive XEvent where
  | start (name : List Char) (atts : List (List Char × List Char))
  | text (s : List Char)
  | close

/-- Dispatch one event into the parse context. -/
def step (cfg : Cfg) (pd : Parsedata) : XEvent → Parsedata
  | .start n atts => startElement pd n atts
  | .text s => characterData pd s
  | .close => endElement cfg pd

/-- Run the parser over an event stream from the zero-initialized parse
context of `repo_add_appdata_fn`. -/
def run (cfg : Cfg) (evs : List XEvent) : Parsedata :=
  evs.foldl (step cfg) {}

/-! ### Properties of `wsstrip` (claim C4) -/

/-- Adjacent output characters are never both whitespace. -/
def NoWsPair (a b : Char) : Prop := isWs a = false ∨ isWs b = false

theorem getLast?_cons_ne_nil (a : Char) (l : List Char) (h : l ≠ []) :
    (a :: l).getLast? = l.getLast? := by
  cases l with
  | nil => exact absurd rfl h
  | cons b t => exact List.getLast?_cons_cons

theorem wsstripGo_props (s : List Char) : ∀ (ws : Nat) (acc : List Char),
    (∀ c, acc.head? = some c → isWs c = false) →
    (∀ c, acc.getLast? = some c → isWs c = false) →
    List.Chain' NoWsPair acc →
    (∀ c, (wsstripGo s ws acc).head? = some c → isWs c = false) ∧
    (∀ c, (wsstripGo s ws acc).getLast? = some c → isWs c = false) ∧
    List.Chain' NoWsPair (wsstripGo s ws acc) := by
  induction s with
  | nil =>
    intro ws acc h1 h2 h3
    refine ⟨?_, ?_, ?_⟩
    · intro c hc
      rw [wsstripGo, List.head?_reverse] at hc
      exact h2 c hc
    · intro c hc
      rw [wsstripGo, List.getLast?_reverse] at hc
      exact h1 c hc
    · rw [wsstripGo]
      exact List.chain'_reverse.mpr (h3.imp (fun a b h => Or.symm h))
  | cons c t ih =>
    intro ws acc h1 h2 h3
    by_cases hc : isWs c = true
    · simpa [wsstripGo, hc] using ih (ws ||| wsNum c) acc h1 h2 h3
    · simp only [Bool.not_eq_true] at hc
      by_cases hb : ws ≠ 0 ∧ acc ≠ []
      · have h1' : ∀ x, (c :: wsSep ws :: acc).head? = some x → isWs x = false := by
          intro x hx
          simp only [List.head?_cons, Option.some.injEq] at hx
          exact hx ▸ hc
        have h2' : ∀ x, (c :: wsSep ws :: acc).getLast? = some x → isWs x = false := by
          intro x hx
          rw [List.getLast?_cons_cons, getLast?_cons_ne_nil _ _ hb.2] at hx
          exact h2 x hx
        have h3' : List.Chain' NoWsPair (c :: wsSep ws :: acc) := by
          rw [List.chain'_cons]
          refine ⟨Or.inl hc, ?_⟩
          rw [List.chain'_cons']
          refine ⟨?_, h3⟩
          intro y hy
          exact Or.inr (h1 y hy)
        simpa [wsstripGo, hc, hb] using ih 0 (c :: wsSep ws :: acc) h1' h2' h3'
      · have h1' : ∀ x, (c :: acc).head? = some x → isWs x = false := by
          intro x hx
          simp only [List.head?_cons, Option.some.injEq] at hx
          exact hx ▸ hc
        have h2' : ∀ x, (c :: acc).getLast? = some x → isWs x = false := by
          intro x hx
          rcases List.eq_nil_or_concat acc with rfl | ⟨l, b, rfl⟩
          · simp only [List.getLast?_singleton, Option.some.injEq] at hx
            exact hx ▸ hc
          · rw [getLast?_cons_ne_nil _ _ (by simp)] at hx
            exact h2 x hx
        have h3' : List.Chain' NoWsPair (c :: acc) := by
          rw [List.chain'_cons']
          refine ⟨?_, h3⟩
          intro y hy
          exact Or.inr (h1 y hy)
        simpa [wsstripGo, hc, hb] using ih 0 (c :: acc) h1' h2' h3'

theorem wsstrip_props (s : List Char) :
    (∀ c, (wsstrip s).head? = some c → isWs c = false) ∧
    (∀ c, (wsstrip s).getLast? = some c → isWs c = false) ∧
    List.Chain' NoWsPair (wsstrip s) :=
  wsstripGo_props s 0 [] (by simp) (by simp) (by simp)

theorem wsOr_lt_four (ws : Nat) (c : Char) (h : ws < 4) : ws ||| wsNum c < 4 := by
  by_cases hc : c = '\n' <;> simp only [wsNum, hc, if_pos, if_neg, if_true, if_false] <;>
    interval_cases ws <;> decide

theorem wsOr_ne_zero (ws : Nat) (c : Char) (h : ws < 4) : ws ||| wsNum c ≠ 0 := by
  by_cases hc : c = '\n' <;> simp only [wsNum, hc, if_pos, if_neg, if_true, if_false] <;>
    interval_cases ws <;> decide

theorem wsOr_and_two (ws : Nat) (c : Char) (h : ws < 4) :
    ((ws ||| wsNum c) &&& 2 ≠ 0) ↔ (ws &&& 2 ≠ 0 ∨ c = '\n') := by
  by_cases hc : c = '\n'
  · simp only [wsNum, hc, if_true, or_true, iff_true]
    interval_cases ws <;> decide
  · simp only [wsNum, hc, if_false, or_false]
    interval_cases ws <;> decide

theorem dropWhile_head_false (p : Char → Bool) :
    ∀ (s : List Char) (y : Char) (v : List Char),
      s.dropWhile p = y :: v → p y = false := by
  intro s
  induction s with
  | nil => intro y v h; simp at h
  | cons c t ih =>
    intro y v h
    rw [List.dropWhile_cons] at h
    by_cases hc : p c
    · rw [if_pos hc] at h
      exact ih y v h
    · rw [if_neg hc] at h
      cases h
      simpa using hc

theorem wsspecGo_nil : wsspecGo [] = [] := by
  rw [wsspecGo]

theorem wsspecGo_cons_pos (c : Char) (t : List Char) (h : isWs c = true) :
    wsspecGo (c :: t) =
      (if (List.dropWhile isWs t).isEmpty then []
       else runSep (c :: List.takeWhile isWs t) ::
         wsspecGo (List.dropWhile isWs t)) := by
  rw [wsspecGo]
  simp [h, List.dropWhile_cons, List.takeWhile_cons]

theorem wsspecGo_cons_neg (c : Char) (t : List Char) (h : isWs c = false) :
    wsspecGo (c :: t) = c :: wsspecGo t := by
  rw [wsspecGo]
  simp only [h, Bool.false_eq_true, dite_false]

/-- The output still to be produced when the loop holds a pending whitespace
summary `ws` and the rest of the input is `s`: if only whitespace remains the
run is dropped, otherwise the merged run collapses to one separator. -/
def tailSpec (s : List Char) (ws : Nat) : List Char :=
  match s.dropWhile isWs with
  | [] => []
  | y :: v =>
    (if ws &&& 2 ≠ 0 ∨ '\n' ∈ s.takeWhile isWs then '\n' else ' ') ::
      y :: wsspecGo v

theorem tailSpec_nil_drop (s : List Char) (ws : Nat) (h : s.dropWhile isWs = []) :
    tailSpec s ws = [] := by
  unfold tailSpec
  rw [h]

theorem tailSpec_cons_drop (s : List Char) (y : Char) (v : List Char) (ws : Nat)
    (h : s.dropWhile isWs = y :: v) :
    tailSpec s ws =
      (if ws &&& 2 ≠ 0 ∨ '\n' ∈ s.takeWhile isWs then '\n' else ' ') ::
        y :: wsspecGo v := by
  unfold tailSpec
  rw [h]

theorem wsNum_and_two (c : Char) : (wsNum c &&& 2 ≠ 0) ↔ c = '\n' := by
  by_cases h : c = '\n' <;> simp [wsNum, h]

theorem tailSpec_ws_cons (c : Char) (t : List Char) (ws : Nat)
    (hc : isWs c = true) (hws : ws < 4) :
    tailSpec (c :: t) ws = tailSpec t (ws ||| wsNum c) := by
  cases hdrop : List.dropWhile isWs t with
  | nil =>
    have hd : (c :: t).dropWhile isWs = [] := by
      rw [List.dropWhile_cons, if_pos hc]; exact hdrop
    rw [tailSpec_nil_drop _ _ hd, tailSpec_nil_drop _ _ hdrop]
  | cons y v =>
    have hd : (c :: t).dropWhile isWs = y :: v := by
      rw [List.dropWhile_cons, if_pos hc]; exact hdrop
    rw [tailSpec_cons_drop _ _ _ _ hd, tailSpec_cons_drop _ _ _ _ hdrop]
    have hmem : ('\n' ∈ (c :: t).takeWhile isWs) ↔
        (c = '\n' ∨ '\n' ∈ t.takeWhile isWs) := by
      rw [List.takeWhile_cons, if_pos hc, List.mem_cons, eq_comm]
    have hcond : (ws &&& 2 ≠ 0 ∨ '\n' ∈ (c :: t).takeWhile isWs) ↔
        ((ws ||| wsNum c) &&& 2 ≠ 0 ∨ '\n' ∈ t.takeWhile isWs) := by
      rw [hmem, wsOr_and_two ws c hws, or_assoc]
    rw [if_congr hcond rfl rfl]

theorem wsspecGo_ws_head (c : Char) (t : List Char) (hc : isWs c = true) :
    wsspecGo (c :: t) = tailSpec t (wsNum c) := by
  rw [wsspecGo_cons_pos c t hc]
  cases hdrop : List.dropWhile isWs t with
  | nil =>
    rw [tailSpec_nil_drop _ _ hdrop]
    simp
  | cons y v =>
    have hy : isWs y = false := dropWhile_head_false isWs t y v hdrop
    rw [tailSpec_cons_drop _ _ _ _ hdrop]
    simp only [List.isEmpty_cons, Bool.false_eq_true, if_false]
    rw [wsspecGo_cons_neg y v hy]
    have hcond : ('\n' ∈ c :: t.takeWhile isWs) ↔
        (wsNum c &&& 2 ≠ 0 ∨ '\n' ∈ t.takeWhile isWs) := by
      rw [List.mem_cons, wsNum_and_two, eq_comm]
    rw [runSep, if_congr hcond rfl rfl]

theorem wsstripGo_spec : ∀ (n : Nat) (s : List Char), s.length ≤ n →
    ∀ (ws : Nat) (acc : List Char), ws < 4 → acc ≠ [] →
    wsstripGo s ws acc =
      acc.reverse ++ (if ws = 0 then wsspecGo s else tailSpec s ws) := by
  intro n
  induction n with
  | zero =>
    intro s hs ws acc _ _
    have hnil : s = [] := List.length_eq_zero.mp (Nat.le_zero.mp hs)
    subst hnil
    by_cases h0 : ws = 0
    · simp [wsstripGo, h0, wsspecGo_nil]
    · simp [wsstripGo, h0, tailSpec_nil_drop [] ws (by simp)]
  | succ n ih =>
    intro s hs ws acc hws hacc
    cases s with
    | nil =>
      by_cases h0 : ws = 0
      · simp [wsstripGo, h0, wsspecGo_nil]
      · simp [wsstripGo, h0, tailSpec_nil_drop [] ws (by simp)]
    | cons c t =>
      have ht : t.length ≤ n := Nat.le_of_succ_le_succ hs
      by_cases hc : isWs c = true
      · have hlhs : wsstripGo (c :: t) ws acc = wsstripGo t (ws ||| wsNum c) acc := by
          simp [wsstripGo, hc]
        rw [hlhs, ih t ht _ acc (wsOr_lt_four ws c hws) hacc,
            if_neg (wsOr_ne_zero ws c hws)]
        congr 1
        by_cases h0 : ws = 0
        · subst h0
          rw [if_pos rfl, wsspecGo_ws_head c t hc]
          congr 1
          rw [Nat.zero_or]
        · rw [if_neg h0, tailSpec_ws_cons c t ws hc hws]
      · simp only [Bool.not_eq_true] at hc
        by_cases h0 : ws = 0
        · have hlhs : wsstripGo (c :: t) ws acc = wsstripGo t 0 (c :: acc) := by
            simp [wsstripGo, hc, h0]
          rw [hlhs, ih t ht 0 (c :: acc) (by decide) (by simp),
              if_pos rfl, if_pos h0, wsspecGo_cons_neg c t hc]
          simp
        · have hlhs : wsstripGo (c :: t) ws acc =
              wsstripGo t 0 (c :: wsSep ws :: acc) := by
            simp [wsstripGo, hc, h0, hacc]
          have hd : (c :: t).dropWhile isWs = c :: t := by
            rw [List.dropWhile_cons, if_neg (by simp [hc])]
          have htw : (c :: t).takeWhile isWs = [] := by
            rw [List.takeWhile_cons, if_neg (by simp [hc])]
          rw [hlhs, ih t ht 0 (c :: wsSep ws :: acc) (by decide) (by simp),
              if_pos rfl, if_neg h0, tailSpec_cons_drop _ _ _ _ hd, htw]
          simp [wsSep]

theorem wsstripGo_nil_acc : ∀ (n : Nat) (s : List Char), s.length ≤ n →
    ∀ (ws : Nat), ws < 4 →
    wsstripGo s ws [] = wsspecGo (s.dropWhile isWs) := by
  intro n
  induction n with
  | zero =>
    intro s hs ws _
    have hnil : s = [] := List.length_eq_zero.mp (Nat.le_zero.mp hs)
    subst hnil
    simp [wsstripGo, wsspecGo_nil]
  | succ n ih =>
    intro s hs ws hws
    cases s with
    | nil => simp [wsstripGo, wsspecGo_nil]
    | cons c t =>
      have ht : t.length ≤ n := Nat.le_of_succ_le_succ hs
      by_cases hc : isWs c = true
      · have hlhs : wsstripGo (c :: t) ws [] = wsstripGo t (ws ||| wsNum c) [] := by
          simp [wsstripGo, hc]
        rw [hlhs, ih t ht _ (wsOr_lt_four ws c hws), List.dropWhile_cons, if_pos hc]
      · simp only [Bool.not_eq_true] at hc
        have hlhs : wsstripGo (c :: t) ws [] = wsstripGo t 0 [c] := by
          simp [wsstripGo, hc]
        rw [hlhs, wsstripGo_spec n t ht 0 [c] (by decide) (by simp), if_pos rfl,
            List.dropWhile_cons, if_neg (by simp [hc]), wsspecGo_cons_neg c t hc]
        simp

/-- `wsstrip` computes exactly the specification-level collapse `wsspec`. -/
theorem wsstrip_eq_wsspec (s : List Char) : wsstrip s = wsspec s :=
  wsstripGo_nil_acc s.length s le_rfl 0 (by decide)

/-! ### Properties of `indent` (claim C5) -/

theorem linesOf_nil : linesOf [] = [[]] := rfl

theorem linesOf_cons_nl (t : List Char) : linesOf ('\n' :: t) = [] :: linesOf t := by
  simp [linesOf]

theorem linesOf_ne_nil (s : List Char) : linesOf s ≠ [] := by
  cases s with
  | nil => simp [linesOf]
  | cons c t =>
    by_cases h : c = '\n'
    · simp [linesOf, h]
    · rw [linesOf.eq_def]
      simp only [h, if_false]
      cases hl : linesOf t <;> simp

theorem linesOf_cons_word (c : Char) (t : List Char) (l : List Char)
    (ls : List (List Char)) (h : ¬ c = '\n') (hl : linesOf t = l :: ls) :
    linesOf (c :: t) = (c :: l) :: ls := by
  rw [linesOf.eq_def]
  simp only [h, if_false, hl]

theorem linesOf_word (w : List Char) (hw : ∀ c ∈ w, ¬ c = '\n') :
    linesOf w = [w] := by
  induction w with
  | nil => rfl
  | cons c t ih =>
    have hc : ¬ c = '\n' := hw c (List.mem_cons_self c t)
    have ht : linesOf t = [t] := ih (fun x hx => hw x (List.mem_cons_of_mem c hx))
    exact linesOf_cons_word c t t [] hc ht

theorem linesOf_word_append (w r : List Char) (l : List Char)
    (ls : List (List Char)) (hw : ∀ c ∈ w, ¬ c = '\n') (hr : linesOf r = l :: ls) :
    linesOf (w ++ r) = (w ++ l) :: ls := by
  induction w with
  | nil => simpa using hr
  | cons c t ih =>
    have hc : ¬ c = '\n' := hw c (List.mem_cons_self c t)
    have ht := ih (fun x hx => hw x (List.mem_cons_of_mem c hx))
    rw [List.cons_append, linesOf_cons_word c (t ++ r) (t ++ l) ls hc ht,
        List.cons_append]

theorem indentGo_false (il : Nat) : ∀ (t : List Char),
    indentGo il false t =
      t.takeWhile (fun c => c ≠ '\n') ++ indent il (t.dropWhile (fun c => c ≠ '\n')) := by
  intro t
  induction t with
  | nil => simp [indentGo, indent]
  | cons c t ih =>
    by_cases h : c = '\n'
    · simp [indentGo, h, indent, List.takeWhile_cons, List.dropWhile_cons]
    · simp only [indentGo, h, if_false, ih, List.takeWhile_cons, List.dropWhile_cons]
      simp [h]

theorem indent_cons_word (il : Nat) (c : Char) (t : List Char) (h : ¬ c = '\n') :
    indent il (c :: t) =
      (List.replicate il ' ' ++ (c :: t.takeWhile (fun x => x ≠ '\n'))) ++
        indent il (t.dropWhile (fun x => x ≠ '\n')) := by
  show indentGo il true (c :: t) = _
  rw [indentGo]
  simp only [h, if_false, if_true, indentGo_false il t]
  simp

theorem indent_cons_nl (il : Nat) (t : List Char) :
    indent il ('\n' :: t) = '\n' :: indent il t := by
  show indentGo il true ('\n' :: t) = _
  rw [indentGo]
  simp [indent]

theorem no_nl_word (il : Nat) (c : Char) (t : List Char) (h : ¬ c = '\n') :
    ∀ x ∈ List.replicate il ' ' ++ (c :: t.takeWhile (fun y => y ≠ '\n')),
      ¬ x = '\n' := by
  intro x hx
  rcases List.mem_append.mp hx with hx | hx
  · rw [List.eq_of_mem_replicate hx]
    decide
  · rcases List.mem_cons.mp hx with rfl | hx
    · exact h
    · simpa using List.mem_takeWhile_imp hx

theorem indent_lines (il : Nat) : ∀ (n : Nat) (s : List Char), s.length ≤ n →
    linesOf (indent il s) =
      (linesOf s).map (fun l => if l = [] then [] else List.replicate il ' ' ++ l) := by
  intro n
  induction n with
  | zero =>
    intro s hs
    have hnil : s = [] := List.length_eq_zero.mp (Nat.le_zero.mp hs)
    subst hnil
    simp [indent, indentGo, linesOf_nil]
  | succ n ih =>
    intro s hs
    cases s with
    | nil => simp [indent, indentGo, linesOf_nil]
    | cons c t =>
      by_cases h : c = '\n'
      · subst h
        rw [indent_cons_nl, linesOf_cons_nl, linesOf_cons_nl, List.map_cons,
            ih t (Nat.le_of_succ_le_succ hs)]
        simp
      · rw [indent_cons_word il c t h]
        have hsplit : c :: t =
            (c :: t.takeWhile (fun y => y ≠ '\n')) ++
              t.dropWhile (fun y => y ≠ '\n') := by
          rw [List.cons_append, List.takeWhile_append_dropWhile]
        have hwNoNl : ∀ x ∈ c :: t.takeWhile (fun y => y ≠ '\n'), ¬ x = '\n' := by
          intro x hx
          rcases List.mem_cons.mp hx with rfl | hx
          · exact h
          · simpa using List.mem_takeWhile_imp hx
        cases hr : t.dropWhile (fun y => y ≠ '\n') with
        | nil =>
          have hall : ∀ x ∈ t, ¬ x = '\n' := by
            intro x hx
            have := List.dropWhile_eq_nil_iff.mp hr x hx
            simpa using this
          have htw : t.takeWhile (fun y => y ≠ '\n') = t := by
            conv_rhs => rw [← List.takeWhile_append_dropWhile
              (p := fun y => (y ≠ '\n' : Bool)) (l := t), hr, List.append_nil]
          rw [htw, show indent il ([] : List Char) = [] from rfl, List.append_nil]
          have hword : ∀ x ∈ List.replicate il ' ' ++ (c :: t), ¬ x = '\n' := by
            intro x hx
            rcases List.mem_append.mp hx with hx | hx
            · rw [List.eq_of_mem_replicate hx]
              decide
            · rcases List.mem_cons.mp hx with rfl | hx
              · exact h
              · exact hall x hx
          have hct : ∀ x ∈ c :: t, ¬ x = '\n' := by
            intro x hx
            rcases List.mem_cons.mp hx with rfl | hx
            · exact h
            · exact hall x hx
          rw [linesOf_word _ hword, linesOf_word _ hct]
          simp
        | cons y r2 =>
          have hy : y = '\n' := by
            have := dropWhile_head_false (fun y => y ≠ '\n') t y r2 hr
            simpa using this
          subst hy
          have hsplit2 : c :: t =
              (c :: t.takeWhile (fun y => y ≠ '\n')) ++ ('\n' :: r2) := by
            rw [hsplit, hr]
          have hlen : r2.length ≤ n := by
            have hl := congrArg List.length hsplit2
            simp only [List.length_cons, List.length_append] at hl hs
            omega
          rw [indent_cons_nl]
          rw [linesOf_word_append _ _ _ _ (no_nl_word il c t h)
                (linesOf_cons_nl (indent il r2)), List.append_nil]
          rw [hsplit2, linesOf_word_append _ _ _ _ hwNoNl (linesOf_cons_nl r2),
              List.append_nil, List.map_cons, ih r2 hlen]
          simp

theorem filter_ne_nil_cons_nil (L : List (List Char)) :
    (([] :: L).filter (fun l => l ≠ [])) = L.filter (fun l => l ≠ []) := by
  simp [List.filter_cons]

theorem filter_ne_nil_cons (w : List Char) (hw : w ≠ []) (L : List (List Char)) :
    ((w :: L).filter (fun l => l ≠ [])) = w :: L.filter (fun l => l ≠ []) := by
  simp [List.filter_cons, hw]

theorem indent_length (il : Nat) : ∀ (n : Nat) (s : List Char), s.length ≤ n →
    (indent il s).length =
      s.length + il * ((linesOf s).filter (fun l => l ≠ [])).length := by
  intro n
  induction n with
  | zero =>
    intro s hs
    have hnil : s = [] := List.length_eq_zero.mp (Nat.le_zero.mp hs)
    subst hnil
    simp [indent, indentGo, linesOf_nil]
  | succ n ih =>
    intro s hs
    cases s with
    | nil => simp [indent, indentGo, linesOf_nil]
    | cons c t =>
      by_cases h : c = '\n'
      · subst h
        rw [indent_cons_nl, linesOf_cons_nl, filter_ne_nil_cons_nil]
        simp only [List.length_cons]
        rw [ih t (Nat.le_of_succ_le_succ hs)]
        omega
      · rw [indent_cons_word il c t h]
        have hsplit : c :: t =
            (c :: t.takeWhile (fun y => y ≠ '\n')) ++
              t.dropWhile (fun y => y ≠ '\n') := by
          rw [List.cons_append, List.takeWhile_append_dropWhile]
        have hwNoNl : ∀ x ∈ c :: t.takeWhile (fun y => y ≠ '\n'), ¬ x = '\n' := by
          intro x hx
          rcases List.mem_cons.mp hx with rfl | hx
          · exact h
          · simpa using List.mem_takeWhile_imp hx
        cases hr : t.dropWhile (fun y => y ≠ '\n') with
        | nil =>
          have htw : t.takeWhile (fun y => y ≠ '\n') = t := by
            conv_rhs => rw [← List.takeWhile_append_dropWhile
              (p := fun y => (y ≠ '\n' : Bool)) (l := t), hr, List.append_nil]
          rw [htw] at hwNoNl
          rw [htw, show indent il ([] : List Char) = [] from rfl, List.append_nil,
              linesOf_word _ hwNoNl, filter_ne_nil_cons _ (by simp) []]
          simp only [List.length_append, List.length_cons, List.length_replicate,
            List.filter_nil, List.length_nil]
          omega
        | cons y r2 =>
          have hy : y = '\n' := by
            have := dropWhile_head_false (fun y => y ≠ '\n') t y r2 hr
            simpa using this
          subst hy
          have hsplit2 : c :: t =
              (c :: t.takeWhile (fun y => y ≠ '\n')) ++ ('\n' :: r2) := by
            rw [hsplit, hr]
          have hlen : r2.length ≤ n := by
            have hl := congrArg List.length hsplit2
            simp only [List.length_cons, List.length_append] at hl hs
            omega
          have hcnt : linesOf (c :: t) =
              (c :: t.takeWhile (fun y => y ≠ '\n')) :: linesOf r2 := by
            rw [hsplit2, linesOf_word_append _ _ _ _ hwNoNl (linesOf_cons_nl r2),
                List.append_nil]
          have hl2 : t.length =
              (t.takeWhile (fun y => y ≠ '\n')).length + r2.length + 1 := by
            have hl := congrArg List.length hsplit2
            simp only [List.length_cons, List.length_append] at hl
            omega
          rw [indent_cons_nl, hcnt, filter_ne_nil_cons _ (by simp) (linesOf r2)]
          simp only [List.length_append, List.length_cons, List.length_replicate]
          rw [ih r2 hlen, Nat.mul_succ]
          omega

/-- C4: for every input, the output of `wsstrip` has no leading whitespace, no
trailing whitespace, and no run of two consecutive whitespace characters; and
it equals `wsspec`, which collapses every whitespace run containing a newline
to a single newline and every run of only spaces/tabs to a single space. -/
theorem c4_wsstrip_normal_form (s : List Char) :
    (∀ c, (wsstrip s).head? = some c → isWs c = false) ∧
    (∀ c, (wsstrip s).getLast? = some c → isWs c = false) ∧
    List.Chain' (fun a b => ¬(isWs a = true ∧ isWs b = true)) (wsstrip s) ∧
    wsstrip s = wsspec s := by
  obtain ⟨h1, h2, h3⟩ := wsstrip_props s
  refine ⟨h1, h2, ?_, wsstrip_eq_wsspec s⟩
  refine h3.imp (fun a b hab => ?_)
  rcases hab with hab | hab <;> simp [hab]

/-- Witness for C4 at the concrete input `" a \n b "`. -/
theorem c4_wsstrip_normal_form_witness :
    isWs 'a' = false ∧ isWs 'b' = false ∧
    wsstrip " a \n b ".toList = wsspec " a \n b ".toList :=
  ⟨(c4_wsstrip_normal_form (" a \n b ".toList)).1 'a' (by decide),
   (c4_wsstrip_normal_form (" a \n b ".toList)).2.1 'b' (by decide),
   (c4_wsstrip_normal_form (" a \n b ".toList)).2.2.2⟩

/-- C5 as stated is false: `indent` steps over empty lines without inserting
spaces, so on `"a\n\nb"` (3 lines, one empty) with `n = 1` the length grows by
2, not `1 * 3`, and the middle line of the result is still empty. -/
theorem c5_indent_cex :
    ¬ ((indent 1 "a\n\nb".toList).length =
         ("a\n\nb".toList).length + 1 * (linesOf "a\n\nb".toList).length ∧
       linesOf (indent 1 "a\n\nb".toList) =
         (linesOf "a\n\nb".toList).map (fun l => List.replicate 1 ' ' ++ l)) := by
  decide

/-- C5 amended: `indent buf n` increases the length by `n` times the number of
NON-EMPTY lines, and every non-empty line of the result is `n` spaces followed
by the original line, while empty lines are left unchanged. -/
theorem c5_indent_amended (il : Nat) (s : List Char) :
    linesOf (indent il s) =
      (linesOf s).map (fun l => if l = [] then [] else List.replicate il ' ' ++ l) ∧
    (indent il s).length =
      s.length + il * ((linesOf s).filter (fun l => l ≠ [])).length :=
  ⟨indent_lines il s.length s le_rfl, indent_length il s.length s le_rfl⟩

/-! ### List-item markers on the buffer (claims C6 and C10) -/

theorem wsstripGo_mem : ∀ (s : List Char) (ws : Nat) (acc : List Char) (c : Char),
    c ∈ wsstripGo s ws acc → c ∈ acc ∨ c ∈ s ∨ c = ' ' ∨ c = '\n' := by
  intro s
  induction s with
  | nil =>
    intro ws acc c hc
    rw [wsstripGo, List.mem_reverse] at hc
    exact Or.inl hc
  | cons a t ih =>
    intro ws acc c hc
    by_cases ha : isWs a = true
    · rw [show wsstripGo (a :: t) ws acc = wsstripGo t (ws ||| wsNum a) acc by
        simp [wsstripGo, ha]] at hc
      rcases ih _ _ c hc with h | h | h | h
      · exact Or.inl h
      · exact Or.inr (Or.inl (List.mem_cons_of_mem a h))
      · exact Or.inr (Or.inr (Or.inl h))
      · exact Or.inr (Or.inr (Or.inr h))
    · simp only [Bool.not_eq_true] at ha
      by_cases hb : ws ≠ 0 ∧ acc ≠ []
      · rw [show wsstripGo (a :: t) ws acc = wsstripGo t 0 (a :: wsSep ws :: acc) by
          simp [wsstripGo, ha, hb]] at hc
        rcases ih _ _ c hc with h | h | h | h
        · rcases List.mem_cons.mp h with rfl | h
          · exact Or.inr (Or.inl (List.mem_cons_self _ _))
          · rcases List.mem_cons.mp h with rfl | h
            · unfold wsSep
              by_cases h2 : ws &&& 2 ≠ 0 <;> simp [h2]
            · exact Or.inl h
        · exact Or.inr (Or.inl (List.mem_cons_of_mem a h))
        · exact Or.inr (Or.inr (Or.inl h))
        · exact Or.inr (Or.inr (Or.inr h))
      · rw [show wsstripGo (a :: t) ws acc = wsstripGo t 0 (a :: acc) by
          simp only [wsstripGo, ha, Bool.false_eq_true, if_false, hb]] at hc
        rcases ih _ _ c hc with h | h | h | h
        · rcases List.mem_cons.mp h with rfl | h
          · exact Or.inr (Or.inl (List.mem_cons_self _ _))
          · exact Or.inl h
        · exact Or.inr (Or.inl (List.mem_cons_of_mem a h))
        · exact Or.inr (Or.inr (Or.inl h))
        · exact Or.inr (Or.inr (Or.inr h))

theorem wsstrip_mem (s : List Char) (c : Char) (hc : c ∈ wsstrip s) :
    c ∈ s ∨ c = ' ' ∨ c = '\n' := by
  rcases wsstripGo_mem s 0 [] c hc with h | h
  · simp at h
  · exact h

theorem strOf_mem_ne_nul (b : List Char) (c : Char) (hc : c ∈ strOf b) :
    c ≠ nul := by
  simpa using List.mem_takeWhile_imp hc

theorem wsstrip_strOf_ne_nul (b : List Char) (c : Char)
    (hc : c ∈ wsstrip (strOf b)) : c ≠ nul := by
  rcases wsstrip_mem _ c hc with h | h | h
  · exact strOf_mem_ne_nul b c h
  · subst h; decide
  · subst h; decide

theorem strOf_append_nul (x t : List Char) (hx : ∀ c ∈ x, c ≠ nul) :
    strOf (x ++ [nul] ++ t) = x := by
  rw [List.append_assoc, List.singleton_append]
  induction x with
  | nil => simp [strOf, List.takeWhile_cons]
  | cons c r ih =>
    have hc : c ≠ nul := hx c (List.mem_cons_self c r)
    rw [List.cons_append]
    show List.takeWhile (fun c => c ≠ nul) (c :: (r ++ nul :: t)) = c :: r
    rw [List.takeWhile_cons, if_pos (by simpa using hc)]
    have := ih (fun y hy => hx y (List.mem_cons_of_mem c hy))
    rw [show strOf (r ++ nul :: t) = List.takeWhile (fun c => c ≠ nul) (r ++ nul :: t)
      from rfl] at this
    rw [this]

theorem strOf_nul_head (x : List Char) : strOf (nul :: x) = [] := by
  simp [strOf, List.takeWhile_cons]

theorem digitChar_ne_nul (d : Nat) (h : d < 10) : digitChar d ≠ nul := by
  unfold digitChar nul
  interval_cases d <;> decide

theorem strOf_take3 (a b c : Char) (r : List Char)
    (ha : a ≠ nul) (hb : b ≠ nul) (hc : c ≠ nul) :
    (strOf (a :: b :: c :: r)).take 3 = [a, b, c] := by
  unfold strOf
  rw [List.takeWhile_cons, if_pos (by simpa using ha),
      List.takeWhile_cons, if_pos (by simpa using hb),
      List.takeWhile_cons, if_pos (by simpa using hc)]
  rfl

theorem strOf_wsstripBuf (b : List Char) :
    strOf (wsstripBuf b) = wsstrip (strOf b) :=
  strOf_append_nul _ _ (fun c hc => wsstrip_strOf_ne_nul b c hc)

theorem indentBuf_wsstripBuf_cons (b : List Char) (hw : Char) (tw : List Char)
    (hne : wsstrip (strOf b) = hw :: tw) (hnl : ¬ hw = '\n') :
    ∃ rest, indentBuf 4 (wsstripBuf b) =
      ' ' :: ' ' :: ' ' :: ' ' :: hw :: rest := by
  have hind : indent 4 (hw :: tw) =
      ' ' :: ' ' :: ' ' :: ' ' :: hw :: indentGo 4 false tw := by
    show indentGo 4 true (hw :: tw) = _
    rw [indentGo]
    simp only [hnl, if_false, if_true]
    rfl
  refine ⟨indentGo 4 false tw ++ [nul] ++
    ((wsstripBuf b).drop ((strOf (wsstripBuf b)).length + 1)).drop
      (4 * ((linesOf (strOf (wsstripBuf b))).filter (fun l => l ≠ [])).length), ?_⟩
  unfold indentBuf
  rw [strOf_wsstripBuf, hne, hind]
  simp [List.cons_append]

/-- C6: with a non-empty (post-wsstrip) item body, the ordered-list close
renders the three-character marker: a space and the ones digit for counter
values 1-9, tens digit then ones digit from 10 on, the digit slots holding the
counter modulo 100, and `'.'` always third. -/
theorem c6_ol_item_markers (licnt : Nat) (b : List Char)
    (hne : wsstrip (strOf b) ≠ []) :
    (1 ≤ licnt → licnt ≤ 9 →
      (strOf (olCloseBuf licnt b)).take 3 = [' ', digitChar licnt, '.']) ∧
    (10 ≤ licnt →
      (strOf (olCloseBuf licnt b)).take 3 =
        [digitChar (licnt / 10 % 10), digitChar (licnt % 10), '.']) := by
  obtain ⟨hw, tw, hwt⟩ : ∃ hw tw, wsstrip (strOf b) = hw :: tw := by
    cases h : wsstrip (strOf b) with
    | nil => exact absurd h hne
    | cons a l => exact ⟨a, l, rfl⟩
  have hhead : isWs hw = false := (wsstrip_props (strOf b)).1 hw (by rw [hwt]; rfl)
  have hnl : ¬ hw = '\n' := by
    intro h
    subst h
    simp [isWs] at hhead
  obtain ⟨rest, hb2⟩ := indentBuf_wsstripBuf_cons b hw tw hwt hnl
  have hdig : ∀ d, d < 10 → digitChar d ≠ nul := digitChar_ne_nul
  constructor
  · intro h1 h9
    have hlt : ¬ 10 ≤ licnt := by omega
    unfold olCloseBuf
    rw [hb2]
    simp only [hlt, if_false]
    rw [show ((' ' :: ' ' :: ' ' :: ' ' :: hw :: rest).set 1
          (digitChar (licnt % 10))).set 2 '.' =
        ' ' :: digitChar (licnt % 10) :: '.' :: ' ' :: hw :: rest from rfl]
    rw [strOf_take3 _ _ _ _ (by decide) (hdig _ (Nat.mod_lt _ (by omega))) (by decide)]
    rw [Nat.mod_eq_of_lt (by omega)]
  · intro h10
    unfold olCloseBuf
    rw [hb2]
    simp only [h10, if_true]
    rw [show (((' ' :: ' ' :: ' ' :: ' ' :: hw :: rest).set 0
          (digitChar (licnt / 10 % 10))).set 1 (digitChar (licnt % 10))).set 2 '.' =
        digitChar (licnt / 10 % 10) :: digitChar (licnt % 10) :: '.' ::
          ' ' :: hw :: rest from rfl]
    rw [strOf_take3 _ _ _ _ (hdig _ (Nat.mod_lt _ (by omega)))
      (hdig _ (Nat.mod_lt _ (by omega))) (by decide)]

/-- Witness for C6: the first item of a list with body `"A"`, and the tenth. -/
theorem c6_ol_item_markers_witness :
    (strOf (olCloseBuf 1 ['A', nul, nul, nul])).take 3 = [' ', digitChar 1, '.'] ∧
    (strOf (olCloseBuf 10 ['A', nul, nul, nul])).take 3 =
      [digitChar 1, digitChar 0, '.'] :=
  ⟨(c6_ol_item_markers 1 ['A', nul, nul, nul] (by decide)).1 (by decide) (by decide),
   (c6_ol_item_markers 10 ['A', nul, nul, nul] (by decide)).2 (by decide)⟩

theorem wsstripBuf_empty (b : List Char) (hws : wsstrip (strOf b) = []) :
    wsstripBuf b = nul :: b.drop 1 := by
  unfold wsstripBuf
  rw [hws]
  rfl

theorem indentBuf_nul_head (x : List Char) :
    indentBuf 4 (nul :: x) = nul :: x := by
  unfold indentBuf
  rw [strOf_nul_head]
  show indent 4 [] ++ [nul] ++ ((nul :: x).drop 1).drop (4 * 0) = nul :: x
  simp [indent, indentGo]

/-- C10 as stated is false for the tenth and later empty ordered items: the
tens-digit store `pd->content[0] = '0' + licnt / 10 % 10` lands exactly on the
terminator of the (empty) string, so the appended fragment starts with the
marker digits (`"10."` plus residual buffer bytes), not the empty string.
Here an ordered item whose captured text is a single space closes as the
10th item and appends `"10.\n"`, not just `"\n"`. -/
theorem c10_empty_li_cex :
    wsstrip (strOf [' ', nul, nul, nul]) = [] ∧
    strOf (olCloseBuf 10 [' ', nul, nul, nul]) = ['1', '0', '.'] ∧
    dupappend (some []) (strOf (olCloseBuf 10 [' ', nul, nul, nul])) ['\n'] ≠
      ['\n'] := by
  decide

/-- C10 amended: for an `li` whose captured text is empty or whitespace-only,
`wsstrip` leaves the empty string, `indent` leaves the buffer unchanged, and,
for an unordered item or an ordered item whose incremented counter is still
≤ 9, the marker bytes land beyond the string's terminator, so the appended
fragment is empty and only the newline separator is appended (the ordered
counter is still incremented, which is reflected by stating the ordered case
at counter value `licnt + 1`).  For an ordered item numbered ≥ 10 the tens
digit overwrites the terminator and a non-empty `"10."`-style fragment is
appended (see the counterexample). -/
theorem c10_empty_li_amended (b : List Char) (d : Option (List Char))
    (licnt : Nat) (hws : wsstrip (strOf b) = []) (hl : licnt + 1 ≤ 9) :
    strOf (ulCloseBuf b) = [] ∧
    dupappend d (strOf (ulCloseBuf b)) ['\n'] = d.getD [] ++ ['\n'] ∧
    strOf (olCloseBuf (licnt + 1) b) = [] ∧
    dupappend d (strOf (olCloseBuf (licnt + 1) b)) ['\n'] =
      d.getD [] ++ ['\n'] := by
  have hb : indentBuf 4 (wsstripBuf b) = nul :: b.drop 1 := by
    rw [wsstripBuf_empty b hws, indentBuf_nul_head]
  have hul : strOf (ulCloseBuf b) = [] := by
    unfold ulCloseBuf
    rw [hb]
    cases b.drop 1 with
    | nil => simp [strOf_nul_head]
    | cons y ys =>
      rw [show (nul :: y :: ys).set 2 '-' = nul :: y :: ys.set 0 '-' from rfl]
      exact strOf_nul_head _
  have hol : strOf (olCloseBuf (licnt + 1) b) = [] := by
    unfold olCloseBuf
    rw [hb]
    simp only [show ¬ (10 ≤ licnt + 1) by omega, if_false]
    cases hd : b.drop 1 with
    | nil => simp [strOf_nul_head]
    | cons y ys =>
      cases ys with
      | nil =>
        rw [show ((nul :: [y]).set 1 (digitChar ((licnt + 1) % 10))).set 2 '.' =
          nul :: [digitChar ((licnt + 1) % 10)] from rfl]
        exact strOf_nul_head _
      | cons z zs =>
        rw [show ((nul :: y :: z :: zs).set 1 (digitChar ((licnt + 1) % 10))).set 2 '.' =
          nul :: digitChar ((licnt + 1) % 10) :: '.' :: zs from rfl]
        exact strOf_nul_head _
  exact ⟨hul, by rw [hul]; simp [dupappend], hol, by rw [hol]; simp [dupappend]⟩

/-- Witness for C10 (amended) at a whitespace-only buffer and the first
ordered item. -/
theorem c10_empty_li_amended_witness :
    strOf (ulCloseBuf [' ', nul, nul, nul]) = [] ∧
    dupappend (some ['x']) (strOf (ulCloseBuf [' ', nul, nul, nul])) ['\n'] =
      ['x', '\n'] ∧
    strOf (olCloseBuf 1 [' ', nul, nul, nul]) = [] ∧
    dupappend (some ['x']) (strOf (olCloseBuf 1 [' ', nul, nul, nul])) ['\n'] =
      ['x', '\n'] :=
  c10_empty_li_amended [' ', nul, nul, nul] (some ['x']) 0 (by decide) (by decide)

/-! ### Dependency synthesis at `application` close (claims C1 and C9) -/

theorem add_missing_tags_deps (cfg : Cfg) (df : List Char) (hs : Bool) (s : Solv) :
    (add_missing_tags_from_desktop_file cfg df hs s).1.requires = s.requires ∧
    (add_missing_tags_from_desktop_file cfg df hs s).1.provides = s.provides ∧
    (add_missing_tags_from_desktop_file cfg df hs s).1.arch = s.arch ∧
    (add_missing_tags_from_desktop_file cfg df hs s).1.evr = s.evr := by
  unfold add_missing_tags_from_desktop_file
  rcases cfg.desktopLookup df with ⟨n, c⟩
  cases n <;> cases c <;> cases hs <;> by_cases h : s.name = none <;> simp [h]

theorem acDefaults_deps (s : Solv) :
    (acDefaults s).requires = s.requires ∧
    (acDefaults s).provides = s.provides ∧
    (acDefaults s).name = s.name := by
  unfold acDefaults
  dsimp only
  split <;> split <;> simp_all

theorem acDesktopFallback_deps (cfg : Cfg) (df : Option (List Char))
    (hs : Bool) (s : Solv) :
    (acDesktopFallback cfg df hs s).1.requires = s.requires ∧
    (acDesktopFallback cfg df hs s).1.provides = s.provides ∧
    (acDesktopFallback cfg df hs s).1.arch = s.arch ∧
    (acDesktopFallback cfg df hs s).1.evr = s.evr := by
  cases df with
  | none => simp [acDesktopFallback]
  | some d =>
    unfold acDesktopFallback
    dsimp only
    split
    · exact ⟨(add_missing_tags_deps cfg d hs s).1,
        (add_missing_tags_deps cfg d hs s).2.1,
        (add_missing_tags_deps cfg d hs s).2.2.1,
        (add_missing_tags_deps cfg d hs s).2.2.2⟩
    · simp

theorem acNameFallback_deps (df : Option (List Char)) (s : Solv) :
    (acNameFallback df s).requires = s.requires ∧
    (acNameFallback df s).provides = s.provides ∧
    (acNameFallback df s).arch = s.arch ∧
    (acNameFallback df s).evr = s.evr := by
  unfold acNameFallback
  cases hn : s.name <;> cases df <;> simp

theorem acOwnerDeps_no_owners (cfg : Cfg) (s : Solv) (h : cfg.owners = []) :
    acOwnerDeps cfg s = s := by
  unfold acOwnerDeps
  simp [h]

theorem acFileDeps_no_guess (cfg : Cfg) (id : List Char) (s : Solv)
    (hfn : cfg.filename = none) (hguess : guess_filename_from_id id = none) :
    acFileDeps cfg (some id) s = s := by
  unfold acFileDeps
  rw [hfn]
  dsimp only
  rw [hguess]
  split <;> rfl

theorem acSelfProvide_shape (s : Solv) :
    (acSelfProvide s).requires = s.requires ∧
    (acSelfProvide s).name = s.name ∧
    (acSelfProvide s).arch = s.arch ∧
    (acSelfProvide s).evr = s.evr ∧
    ((acSelfProvide s).provides = s.provides ∨
      (acSelfProvide s).provides =
        s.provides ++ [Dep.rel (s.name.getD []) (s.evr.getD [])]) := by
  unfold acSelfProvide
  split <;> simp

/-- C1 as stated is false: `guess_filename_from_id` has no fallback append —
for an identifier with no recognized suffix it returns NULL and the caller
adds no dependency.  On `"foo.bin"` the result is `none`, not
`some "foo.bin.metainfo.xml"`. -/
theorem c1_guess_fallback_cex :
    guess_filename_from_id "foo.bin".toList = none ∧
    guess_filename_from_id "foo.bin".toList ≠
      some ("foo.bin".toList ++ ".metainfo.xml".toList) := by
  decide

/-- C1 amended: for a desktop-file-derived identifier matching none of the
five recognized suffix guards, the filename inference returns no filename, so
the `application` close adds no appdata requires edge and no appdata provides
edge: with no prior requires, no owner list and no explicit filename, the
closed record keeps an empty requires set and its provides gain at most the
self-provide relation. -/
theorem c1_guess_fallback_amended (cfg : Cfg) (pd : Parsedata) (s : Solv)
    (id : List Char)
    (hno1 : ¬(8 < id.length ∧ id.drop (id.length - 8) = ".desktop".toList))
    (hno2 : ¬(4 < id.length ∧ id.drop (id.length - 4) = ".ttf".toList))
    (hno3 : ¬(4 < id.length ∧ id.drop (id.length - 4) = ".otf".toList))
    (hno4 : ¬(4 < id.length ∧ id.drop (id.length - 4) = ".xml".toList))
    (hno5 : ¬(3 < id.length ∧ id.drop (id.length - 3) = ".db".toList))
    (hreq : s.requires = []) (howners : cfg.owners = [])
    (hfn : cfg.filename = none) (hdf : pd.desktop_file = some id) :
    guess_filename_from_id id = none ∧
    ∃ r, (applicationClose cfg pd s).closed = pd.closed ++ [r] ∧
      r.requires = [] ∧
      (r.provides = s.provides ∨
        ∃ a b, r.provides = s.provides ++ [Dep.rel a b]) := by
  have hguess : guess_filename_from_id id = none := by
    unfold guess_filename_from_id
    rw [if_neg hno1, if_neg hno2, if_neg hno3, if_neg hno4, if_neg hno5]
  refine ⟨hguess, ?_⟩
  unfold applicationClose
  rw [hdf]
  refine ⟨_, rfl, ?_, ?_⟩
  · rw [acFileDeps_no_guess cfg id _ hfn hguess, acOwnerDeps_no_owners cfg _ howners]
    rw [(acSelfProvide_shape _).1, (acNameFallback_deps _ _).1,
        (acDesktopFallback_deps _ _ _ _).1, (acDefaults_deps _).1, hreq]
  · rw [acFileDeps_no_guess cfg id _ hfn hguess, acOwnerDeps_no_owners cfg _ howners]
    rcases (acSelfProvide_shape
        (acNameFallback (some id) (acDesktopFallback cfg (some id)
          pd.havesummary (acDefaults s)).1)).2.2.2.2 with hp | hp
    · left
      rw [hp, (acNameFallback_deps _ _).2.1, (acDesktopFallback_deps _ _ _ _).2.1,
          (acDefaults_deps _).2.1]
    · right
      rw [(acNameFallback_deps _ _).2.1, (acDesktopFallback_deps _ _ _ _).2.1,
          (acDefaults_deps _).2.1] at hp
      exact ⟨_, _, hp⟩

/-- Witness for C1 (amended) at identifier `"foo.bin"` and an empty parse
context. -/
theorem c1_guess_fallback_amended_witness :
    guess_filename_from_id "foo.bin".toList = none ∧
    ∃ r, (applicationClose {} { desktop_file := some "foo.bin".toList }
        {}).closed = ({} : Parsedata).closed ++ [r] ∧
      r.requires = [] ∧
      (r.provides = ({} : Solv).provides ∨
        ∃ a b, r.provides = ({} : Solv).provides ++ [Dep.rel a b]) := by
  exact c1_guess_fallback_amended {} { desktop_file := some "foo.bin".toList } {}
    "foo.bin".toList (by decide) (by decide) (by decide) (by decide) (by decide)
    rfl rfl rfl rfl

/-- Whether a dependency id is a `pool_rel2id` relation (as opposed to a plain
interned name). -/
def isRel : Dep → Bool
  | .rel _ _ => true
  | .plain _ => false

theorem addOwnerDeps_filter_rel : ∀ (os : List (List Char)) (s : Solv),
    (addOwnerDeps os s).provides.filter isRel = s.provides.filter isRel ∧
    (addOwnerDeps os s).name = s.name ∧
    (addOwnerDeps os s).arch = s.arch ∧
    (addOwnerDeps os s).evr = s.evr := by
  intro os
  induction os with
  | nil => intro s; simp [addOwnerDeps]
  | cons o rest ih =>
    intro s
    rw [addOwnerDeps]
    refine ⟨?_, ?_, ?_, ?_⟩
    · rw [(ih _).1]
      simp [List.filter_append, isRel]
    · rw [(ih _).2.1]
    · rw [(ih _).2.2.1]
    · rw [(ih _).2.2.2]

theorem acOwnerDeps_shape (cfg : Cfg) (s : Solv) :
    (acOwnerDeps cfg s).provides.filter isRel = s.provides.filter isRel ∧
    (acOwnerDeps cfg s).name = s.name ∧
    (acOwnerDeps cfg s).arch = s.arch ∧
    (acOwnerDeps cfg s).evr = s.evr := by
  unfold acOwnerDeps
  split
  · exact addOwnerDeps_filter_rel cfg.owners s
  · exact ⟨rfl, rfl, rfl, rfl⟩

theorem acFileDeps_shape (cfg : Cfg) (df : Option (List Char)) (s : Solv) :
    (acFileDeps cfg df s).provides.filter isRel = s.provides.filter isRel ∧
    (acFileDeps cfg df s).name = s.name ∧
    (acFileDeps cfg df s).arch = s.arch ∧
    (acFileDeps cfg df s).evr = s.evr := by
  unfold acFileDeps
  dsimp only
  split
  · split
    · exact ⟨rfl, rfl, rfl, rfl⟩
    · simp [List.filter_append, isRel]
  · exact ⟨rfl, rfl, rfl, rfl⟩

theorem acSelfProvide_pos (s : Solv)
    (h : s.name.isSome ∧ s.arch ≠ some .src ∧ s.arch ≠ some .nosrc) :
    acSelfProvide s = { s with provides := s.provides ++
      [Dep.rel (s.name.getD []) (s.evr.getD [])] } := by
  unfold acSelfProvide
  rw [if_pos h]

theorem acSelfProvide_neg (s : Solv)
    (h : ¬(s.name.isSome ∧ s.arch ≠ some .src ∧ s.arch ≠ some .nosrc)) :
    acSelfProvide s = s := by
  unfold acSelfProvide
  rw [if_neg h]

theorem applicationClose_closed (cfg : Cfg) (pd : Parsedata) (s : Solv) :
    (applicationClose cfg pd s).closed = pd.closed ++
      [acSelfProvide (acFileDeps cfg pd.desktop_file
        (acOwnerDeps cfg (acNameFallback pd.desktop_file
          (acDesktopFallback cfg pd.desktop_file pd.havesummary
            (acDefaults s)).1)))] := rfl

/-- C9: when a record whose provides hold no relation dep closes, the record
released into the repo carries exactly one `REL_EQ` relation `name = evr` in
its provides if it ends with a name and a non-source architecture, and none
otherwise. -/
theorem c9_self_provide (cfg : Cfg) (pd : Parsedata) (s : Solv)
    (hrel : s.provides.filter isRel = []) :
    ∃ r, (applicationClose cfg pd s).closed = pd.closed ++ [r] ∧
      ((r.name.isSome ∧ r.arch ≠ some Arch.src ∧ r.arch ≠ some Arch.nosrc) →
        r.provides.filter isRel = [Dep.rel (r.name.getD []) (r.evr.getD [])]) ∧
      (¬(r.name.isSome ∧ r.arch ≠ some Arch.src ∧ r.arch ≠ some Arch.nosrc) →
        r.provides.filter isRel = []) := by
  rw [applicationClose_closed]
  generalize hU : acFileDeps cfg pd.desktop_file
    (acOwnerDeps cfg (acNameFallback pd.desktop_file
      (acDesktopFallback cfg pd.desktop_file pd.havesummary
        (acDefaults s)).1)) = U
  have hufilter : U.provides.filter isRel = [] := by
    rw [← hU, (acFileDeps_shape _ _ _).1, (acOwnerDeps_shape _ _).1,
        (acNameFallback_deps _ _).2.1, (acDesktopFallback_deps _ _ _ _).2.1,
        (acDefaults_deps _).2.1, hrel]
  refine ⟨_, rfl, ?_, ?_⟩ <;>
    by_cases hcond : U.name.isSome ∧ U.arch ≠ some Arch.src ∧
      U.arch ≠ some Arch.nosrc
  · rw [acSelfProvide_pos U hcond]
    intro _
    simp only [List.filter_append, hufilter, List.nil_append]
    rfl
  · rw [acSelfProvide_neg U hcond]
    intro h
    exact absurd h hcond
  · rw [acSelfProvide_pos U hcond]
    intro h
    exact absurd hcond h
  · rw [acSelfProvide_neg U hcond]
    intro _
    exact hufilter

/-- Witness for C9 at a record that closed with name `"x"` (the architecture
defaults to `noarch`). -/
theorem c9_self_provide_witness :
    ∃ r, (applicationClose {} {} ({ name := some ['x'] } : Solv)).closed =
        ({} : Parsedata).closed ++ [r] ∧
      ((r.name.isSome ∧ r.arch ≠ some Arch.src ∧ r.arch ≠ some Arch.nosrc) →
        r.provides.filter isRel = [Dep.rel (r.name.getD []) (r.evr.getD [])]) ∧
      (¬(r.name.isSome ∧ r.arch ≠ some Arch.src ∧ r.arch ≠ some Arch.nosrc) →
        r.provides.filter isRel = []) :=
  c9_self_provide {} {} { name := some ['x'] } rfl

/-! ### The uninternalized file-list scan (claim C2) -/

/-- The per-entry selection test of the inner loop of
`search_uninternalized_filelist` (repo_appdata.c lines 627-634), mirrored
literally: the C tests `l > 12 && strncmp(str + l - 12, ".appdata.xml", 12)`
and `l > 13 && strncmp(str + l - 13, ".metainfo.xml", 13)`, where a non-zero
`strncmp` means the suffix does NOT match. -/
def filelist_entry_selected (str : List Char) : Bool :=
  let l := str.length
  if 12 < l ∧ str.drop (l - 12) ≠ ".appdata.xml".toList then true
  else if 13 < l ∧ str.drop (l - 13) ≠ ".metainfo.xml".toList then true
  else false

/-- The inner loop of `search_uninternalized_filelist` over the examined
file-list strings of one solvable `p`: push `(p, str)` for every string
passing the selection test (the repodata cursoring that produces the strings
belongs to the external store). -/
def search_uninternalized_filelist (p : Nat) (strs : List (List Char)) :
    List (Nat × List Char) :=
  (strs.filter filelist_entry_selected).map (fun str => (p, str))

/-- C2 evaluation at the failing input: `"README.textfile"` ends in neither
recognized suffix yet is selected and pushed as an owner candidate, and the
13-character `"x.appdata.xml"` ends in `.appdata.xml` yet is skipped.  The
`strncmp` results are used without negation, inverting the intended suffix
filter (the directory scan at lines 669-671 of the same file applies the same
test with `!strcmp`). -/
theorem c2_filelist_suffix_eval :
    filelist_entry_selected "README.textfile".toList = true ∧
    "README.textfile".toList.drop ("README.textfile".length - 12) ≠
      ".appdata.xml".toList ∧
    "README.textfile".toList.drop ("README.textfile".length - 13) ≠
      ".metainfo.xml".toList ∧
    filelist_entry_selected "x.appdata.xml".toList = false ∧
    "x.appdata.xml".toList.drop 1 = ".appdata.xml".toList ∧
    search_uninternalized_filelist 7 ["README.textfile".toList,
      "x.appdata.xml".toList] = [(7, "README.textfile".toList)] := by
  decide

/-! ### Raw capture of scalar and array fields (claim C3) -/

/-- C3 as stated is false: the summary close writes the captured bytes without
any whitespace normalization.  Capturing `" hi "` in a summary stores
`" hi "`, not its `wsstrip` form `"hi"`. -/
theorem c3_raw_capture_cex :
    ((run {} [.start "component".toList [], .start "summary".toList [],
        .text " hi ".toList, XEvent.close, XEvent.close]).closed.map
      (fun r => r.summary)) = [some " hi ".toList] ∧
    wsstrip " hi ".toList = "hi".toList ∧
    some " hi ".toList ≠ some (wsstrip " hi ".toList) := by
  decide

/-- C3 amended: at every close of a summary, url, product_license,
project_group, extends, or keyword element that is not inside a skipped
subtree, the RAW captured bytes are written into the corresponding record
field or array field; no `wsstrip` normalization is applied (`wsstrip` is only
applied in the description sub-element closes). -/
theorem c3_raw_capture_amended (cfg : Cfg) (pd : Parsedata) (s : Solv)
    (hdepth : pd.depth = pd.statedepth) (hskip : pd.skip_depth = 0)
    (hsolv : pd.solvable = some s) :
    (pd.state = AState.summary → ∃ s2, (endElement cfg pd).solvable = some s2 ∧
      s2.summary = some pd.content) ∧
    (pd.state = AState.url → ∃ s2, (endElement cfg pd).solvable = some s2 ∧
      s2.url = some pd.content) ∧
    (pd.state = AState.licence → ∃ s2, (endElement cfg pd).solvable = some s2 ∧
      s2.license = s.license ++ [pd.content]) ∧
    (pd.state = AState.group → ∃ s2, (endElement cfg pd).solvable = some s2 ∧
      s2.group = s.group ++ [pd.content]) ∧
    (pd.state = AState.extendsSt → ∃ s2, (endElement cfg pd).solvable = some s2 ∧
      s2.extendsA = s.extendsA ++ [pd.content]) ∧
    (pd.state = AState.keyword → ∃ s2, (endElement cfg pd).solvable = some s2 ∧
      s2.keywords = s.keywords ++ [pd.content]) := by
  refine ⟨?_, ?_, ?_, ?_, ?_, ?_⟩ <;>
    (intro hstate
     unfold endElement
     rw [if_neg (by simp [hdepth])]
     rw [if_neg (by simp [hskip])]
     dsimp only
     unfold endAction
     dsimp only
     rw [hstate, hsolv]
     exact ⟨_, rfl, rfl⟩)

/-- Witness for C3 (amended) at a parse context capturing `" hi "` in a
summary element. -/
theorem c3_raw_capture_amended_witness :
    ∃ s2, (endElement {}
        { depth := 2, state := AState.summary, statedepth := 2,
          content := " hi ".toList, solvable := some ({} : Solv) }).solvable =
        some s2 ∧
      s2.summary = some " hi ".toList :=
  (c3_raw_capture_amended {}
    { depth := 2, state := AState.summary, statedepth := 2,
      content := " hi ".toList, solvable := some ({} : Solv) } {}
    rfl rfl rfl).1 rfl

/-! ### The language filter (claim C7) -/

/-- Sibling `<name>Foo</name><name xml:lang="de">Bar</name>` inside a
component. -/
def evFooThenBarDe : List XEvent :=
  [ .start "component".toList [],
    .start "name".toList [], .text "Foo".toList, .close,
    .start "name".toList [("xml:lang".toList, "de".toList)],
      .text "Bar".toList, .close,
    .close ]

/-- The same siblings in the reverse order. -/
def evBarDeThenFoo : List XEvent :=
  [ .start "component".toList [],
    .start "name".toList [("xml:lang".toList, "de".toList)],
      .text "Bar".toList, .close,
    .start "name".toList [], .text "Foo".toList, .close,
    .close ]

/-- Two sibling non-language-tagged `<name>` elements. -/
def evNameANameB : List XEvent :=
  [ .start "component".toList [],
    .start "name".toList [], .text "A".toList, .close,
    .start "name".toList [], .text "B".toList, .close,
    .close ]

/-- C7 as stated is false in its "later occurrences are not allowed to
replace the first retained value" part: with two sibling non-language-tagged
`<name>` elements the later one overwrites the earlier (`s->name` is simply
reassigned at every non-skipped name close), so the record name derives from
`"B"`, not from the first-retained `"A"`. -/
theorem c7_language_filter_cex :
    ((run {} evNameANameB).closed.map (fun r => r.name)) =
      [some "application:B".toList] ∧
    some "application:B".toList ≠ some "application:A".toList := by
  decide

/-- C7 amended: an occurrence carrying `xml:lang` is excluded from capture
regardless of position — with siblings `<name>Foo</name>` and
`<name xml:lang="de">Bar</name>` in either order the record name derives from
`"Foo"` — but among non-language-tagged occurrences the LAST one wins: a later
plain occurrence overwrites the earlier value. -/
theorem c7_language_filter_amended :
    ((run {} evFooThenBarDe).closed.map (fun r => r.name)) =
      [some "application:Foo".toList] ∧
    ((run {} evBarDeThenFoo).closed.map (fun r => r.name)) =
      [some "application:Foo".toList] ∧
    ((run {} evNameANameB).closed.map (fun r => r.name)) =
      [some "application:B".toList] := by
  decide

/-! ### Description flush (claim C8) -/

/-- C8 as stated is false in its "empty after stripping is not written" part:
a description containing only an empty `<ul></ul>` accumulates the single
newline appended at list close; at description close the trailing newline is
stripped and the now-EMPTY string is still written through
`repodata_set_str`.  So the record's description field is set (to the empty
string), not left unchanged. -/
theorem c8_description_flush_cex :
    ((run {} [.start "component".toList [], .start "description".toList [],
        .start "ul".toList [], XEvent.close, XEvent.close,
        XEvent.close]).closed.map (fun r => r.descriptionF)) = [some []] ∧
    (some ([] : List Char)) ≠ (none : Option (List Char)) := by
  decide

/-- C8 amended: at a non-skipped description close, when no description text
was ever accumulated (`pd->description` is NULL) the record's description
field is left unchanged; when a description was accumulated, all trailing
newlines are stripped and the result is written unconditionally — including
when the stripped result is empty. -/
theorem c8_description_flush_amended (cfg : Cfg) (pd : Parsedata) (s : Solv)
    (hdepth : pd.depth = pd.statedepth) (hskip : pd.skip_depth = 0)
    (hsolv : pd.solvable = some s) (hstate : pd.state = AState.description) :
    (pd.description = none → (endElement cfg pd).solvable = some s) ∧
    (∀ d, pd.description = some d →
      ∃ s2, (endElement cfg pd).solvable = some s2 ∧
        s2.descriptionF = some (rstripNl d)) := by
  constructor
  · intro hdesc
    unfold endElement
    rw [if_neg (by simp [hdepth])]
    rw [if_neg (by simp [hskip])]
    dsimp only
    unfold endAction
    dsimp only
    rw [hstate, hdesc]
    exact hsolv
  · intro d hdesc
    unfold endElement
    rw [if_neg (by simp [hdepth])]
    rw [if_neg (by simp [hskip])]
    dsimp only
    unfold endAction
    dsimp only
    rw [hstate, hdesc, hsolv]
    exact ⟨_, rfl, rfl⟩

/-- Witness for C8 (amended): flushing the whitespace-only accumulated
description `"\n"` writes the empty string. -/
theorem c8_description_flush_amended_witness :
    ∃ s2, (endElement {}
        { depth := 2, state := AState.description, statedepth := 2,
          description := some ['\n'], solvable := some ({} : Solv) }).solvable =
        some s2 ∧
      s2.descriptionF = some (rstripNl ['\n']) :=
  (c8_description_flush_amended {}
    { depth := 2, state := AState.description, statedepth := 2,
      description := some ['\n'], solvable := some ({} : Solv) } {}
    rfl rfl rfl rfl).2 ['\n'] rfl
